import Mathlib

/-!
# Verification of `rdups` (src/src/main.rs)

A shallow embedding of the duplicate-file finder in `src/src/main.rs`.

The program's own code is embedded function by function:

* `walk_files`            — `main.rs` lines 58–70
* `group_files_by_size`   — `main.rs` lines 74–81 (`BTreeMap` modelled as a
                            key-sorted association list, `btreeEntryPush`
                            models `groups.entry(size).or_default().push(path)`)
* `filter_file_list`      — `main.rs` lines 83–92
* `blake3_checksum`       — `main.rs` lines 180–190
* `group_files_by_checksum` — `main.rs` lines 123–162; the 32-worker pool is
                            embedded as its sequential refinement: each
                            candidate is pulled exactly once from the shared
                            channel and hashed, successes are aggregated into
                            the `HashMap` (modelled as an association list,
                            `hashEntryPush` models
                            `groups.entry(sum).or_default().push(path)`), and
                            a worker's `Err` from `blake3_checksum(..)?` is
                            propagated by `t.join().expect(..)?`, so the
                            function's result is `Err` exactly when some pulled
                            candidate fails to open.
* `duplicated_files`      — `main.rs` lines 166–177
* `run`                   — the pipeline of `main` (lines 19–54) after argument
                            parsing, returning the duplicate groups that the
                            final loop prints.

External collaborators are embedded at their interface boundary:

* `walkdir` is a stream of `WalkItem`s: an iteration error (which
  `filter_map(|e| e.ok())` discards) or an entry carrying its file-type flag,
  its `metadata()` result and its path.  For a nonexistent root, `walkdir`
  yields exactly one `Err` item; for a file (non-directory) root it yields
  that single file entry.
* `blake3` is a parameter `h : Content → String` (the hex digest string of a
  byte sequence); `File::open` plus `io::copy` is a map
  `read : Path → FileRead`, where `FileRead.noFile e` is a failing
  `File::open` and `FileRead.bytes b` gives the bytes that `io::copy` feeds
  into the hasher — the code ignores the result of `io::copy`
  (`let _ = io::copy(..)`, line 186), so a partial read also lands in the
  `bytes` case, with `b` the prefix actually copied.

Paths are abstract (`Path := Nat`), contents are byte lists, sizes are the
`u64` values returned by `metadata().len()` (modelled as `Nat`; no arithmetic
is performed on them).
-/

namespace Rdups

/-- Abstract file path (`std::path::PathBuf`). -/
abbrev Path := Nat

/-- File content as a byte sequence. -/
abbrev Content := List Nat

/-- An `std::io::Error` kind, as far as the program distinguishes them
(it only propagates them). -/
inductive IOErr where
  | notFound
  | permission
  | metaErr
  deriving DecidableEq

/-- One item yielded by the `WalkDir::new(path).into_iter()` iterator:
either an iteration error (`Err(e)`, discarded by `filter_map(|e| e.ok())`)
or a directory entry with its file-type flag, the result of
`entry.metadata()` (carrying `len()` on success) and its path. -/
inductive WalkItem where
  | err
  | entry (isFile : Bool) (meta : Except IOErr Nat) (p : Path)

/-- Outcome of `File::open` plus `io::copy` for one path: `noFile e` if
`File::open` fails with `e`; `bytes b` with `b` the bytes fed to the hasher
otherwise (the full content, or a prefix when `io::copy` fails mid-way,
since line 186 ignores `io::copy`'s result). -/
inductive FileRead where
  | noFile (e : IOErr)
  | bytes (b : Content)
  deriving DecidableEq

/-- `walk_files` (`main.rs` 58–70): iterate the walkdir stream, keep `Ok`
entries that are files, propagate a `metadata()` error with `?`, and push
`(len, Some(path))` for every file of non-zero length. -/
def walk_files : List WalkItem → Except IOErr (List (Nat × Option Path))
  | [] => .ok []
  | .err :: rest => walk_files rest
  | .entry false _ _ :: rest => walk_files rest
  | .entry true meta p :: rest => do
      let len ← meta
      let files ← walk_files rest
      pure (if len ≠ 0 then (len, some p) :: files else files)

/-- `groups.entry(size).or_default().push(path)` on a `BTreeMap` modelled as
a key-sorted association list: insert the key at its ordered position, or
append the path to the existing entry's vector. -/
def btreeEntryPush : List (Nat × List (Option Path)) → Nat → Option Path →
    List (Nat × List (Option Path))
  | [], size, p => [(size, [p])]
  | (s, ps) :: rest, size, p =>
      if size < s then (size, [p]) :: (s, ps) :: rest
      else if size = s then (s, ps ++ [p]) :: rest
      else (s, ps) :: btreeEntryPush rest size p

/-- `group_files_by_size` (`main.rs` 74–81): fold the walked list into a
`BTreeMap<u64, Vec<Option<PathBuf>>>`. -/
def group_files_by_size (files : List (Nat × Option Path)) :
    List (Nat × List (Option Path)) :=
  files.foldl (fun groups f => btreeEntryPush groups f.1 f.2) []

/-- `filter_file_list` (`main.rs` 83–92): keep the size groups with more than
one path and flatten their `Option<PathBuf>` vectors in `BTreeMap` iteration
order (ascending keys, which the sorted association list gives for free). -/
def filter_file_list (files : List (Nat × List (Option Path))) : List Path :=
  (files.filter (fun e => 1 < e.2.length)).flatMap (fun e => e.2.filterMap id)

/-- `blake3_checksum` (`main.rs` 180–190): `File::open(path)?`, then hash
whatever `io::copy` delivered (its error, if any, is discarded by
`let _ = io::copy(..)`), and return the hex digest string. -/
def blake3_checksum (h : Content → String) (read : Path → FileRead)
    (p : Path) : Except IOErr String :=
  match read p with
  | .noFile e => .error e
  | .bytes b => .ok (h b)

/-- `groups.entry(sum).or_default().push(path)` on the result `HashMap`
modelled as an association list in insertion order: append the path to the
first entry with this key, or append a fresh entry at the end. -/
def hashEntryPush : List (String × List Path) → String → Path →
    List (String × List Path)
  | [], k, v => [(k, [v])]
  | (k', vs) :: rest, k, v =>
      if k = k' then (k', vs ++ [v]) :: rest
      else (k', vs) :: hashEntryPush rest k v

/-- The worker/aggregator loop of `group_files_by_checksum` as a sequential
refinement of the 32-worker pool: pull one candidate from the shared channel,
hash it (`group_files_worker`, lines 94–119), aggregate the `(sum, path)`
result into the `HashMap` (line 153–157).  A worker's `Err` from
`blake3_checksum(&path)?` (line 110) is propagated to the caller by
`t.join().expect(..)?` (line 159), so the loop's result is `Err` exactly when
some candidate's `File::open` fails (the concurrent code finishes draining
the other workers' results before the failing join, but the function still
returns `Err`, discarding the aggregated map). -/
def hashWorkerLoop (h : Content → String) (read : Path → FileRead) :
    List Path → List (String × List Path) →
    Except IOErr (List (String × List Path))
  | [], groups => .ok groups
  | p :: rest, groups =>
      match blake3_checksum h read p with
      | .error e => .error e
      | .ok sum => hashWorkerLoop h read rest (hashEntryPush groups sum p)

/-- `group_files_by_checksum` (`main.rs` 123–162): feed the candidates of
`filter_file_list` through the worker pool and aggregate, starting from the
empty `HashMap`. -/
def group_files_by_checksum (h : Content → String) (read : Path → FileRead)
    (files : List (Nat × List (Option Path))) :
    Except IOErr (List (String × List Path)) :=
  hashWorkerLoop h read (filter_file_list files) []

/-- `duplicated_files` (`main.rs` 166–177): re-insert, entry by entry, every
path of every checksum group that has more than one file. -/
def duplicated_files (files : List (String × List Path)) :
    List (String × List Path) :=
  files.foldl
    (fun dups e =>
      if 1 < e.2.length then e.2.foldl (fun d p => hashEntryPush d e.1 p) dups
      else dups)
    []

/-- The pipeline of `main` (`main.rs` 19–54) after argument parsing: walk,
group by size, group by checksum, extract duplicates; the returned groups
are what the final loop prints, and an `Err` from any `?` aborts `main`
before it prints any group. -/
def run (h : Content → String) (read : Path → FileRead)
    (items : List WalkItem) : Except IOErr (List (String × List Path)) := do
  let files ← walk_files items
  let group_by_size := group_files_by_size files
  let group_by_checksum ← group_files_by_checksum h read group_by_size
  pure (duplicated_files group_by_checksum)

/-! ## A consistent filesystem tree

For the end-to-end claims we instantiate the collaborator boundary with a
static tree: a list of `(path, content)` pairs.  `walkdir` lists every file
with `metadata().len()` equal to its content's length, and reading a file at
hash time yields exactly its content. -/

/-- The walkdir stream of a static tree. -/
def treeListing (t : List (Path × Content)) : List WalkItem :=
  t.map (fun f => .entry true (.ok f.2.length) f.1)

/-- Reading a file of a static tree at hash time. -/
def treeRead (t : List (Path × Content)) (p : Path) : FileRead :=
  match t.lookup p with
  | some c => .bytes c
  | none => .noFile .notFound

/-- The whole program on a static tree. -/
def runTree (h : Content → String) (t : List (Path × Content)) :
    Except IOErr (List (String × List Path)) :=
  run h (treeRead t) (treeListing t)

/-- The `(len, Some(path))` list that `walk_files` produces on a static
tree (a specification-level restatement, shown equal to the embedded
`walk_files` in `walk_files_treeListing`). -/
def treeFiles (t : List (Path × Content)) : List (Nat × Option Path) :=
  t.filterMap (fun f =>
    if f.2.length ≠ 0 then some (f.2.length, some f.1) else none)

/-! ## Observation helpers

First-match lookups into the two association-list maps; these are proof
vocabulary only, not part of the embedded program. -/

/-- The vector stored in the `BTreeMap` under key `s` (`[]` if absent). -/
def sizeVal : List (Nat × List (Option Path)) → Nat → List (Option Path)
  | [], _ => []
  | e :: rest, s => if s = e.1 then e.2 else sizeVal rest s

/-- The vector stored in the result `HashMap` under key `k` (`[]` if
absent). -/
def hashVal : List (String × List Path) → String → List Path
  | [], _ => []
  | e :: rest, k => if k = e.1 then e.2 else hashVal rest k

/-- The `BTreeMap` model is sorted by key. -/
abbrev SizeSorted (g : List (Nat × List (Option Path))) : Prop :=
  g.Pairwise (fun a b => a.1 < b.1)

/-! ## Properties of the size-grouping stage -/

lemma sizeVal_eq_nil_of_forall_lt (g : List (Nat × List (Option Path))) (s : Nat)
    (hl : ∀ e ∈ g, s < e.1) : sizeVal g s = [] := by
  induction g with
  | nil => rfl
  | cons e rest ih =>
      have hs : s ≠ e.1 := Nat.ne_of_lt (hl e (List.mem_cons_self e rest))
      simp only [sizeVal, if_neg hs]
      exact ih (fun e' he' => hl e' (List.mem_cons_of_mem e he'))

lemma mem_btreeEntryPush_elim {g : List (Nat × List (Option Path))} {s : Nat}
    {p : Option Path} {e : Nat × List (Option Path)}
    (he : e ∈ btreeEntryPush g s p) : e ∈ g ∨ ∃ l, e = (s, l ++ [p]) := by
  induction g with
  | nil =>
      simp only [btreeEntryPush, List.mem_singleton] at he
      exact Or.inr ⟨[], he⟩
  | cons hd tl ih =>
      obtain ⟨s', ps⟩ := hd
      by_cases h1 : s < s'
      · simp only [btreeEntryPush, if_pos h1] at he
        rcases List.mem_cons.mp he with heq | he2
        · exact Or.inr ⟨[], heq⟩
        · exact Or.inl he2
      · by_cases h2 : s = s'
        · simp only [btreeEntryPush, if_neg h1, if_pos h2] at he
          rcases List.mem_cons.mp he with heq | he2
          · exact Or.inr ⟨ps, by rw [heq, h2]⟩
          · exact Or.inl (List.mem_cons_of_mem _ he2)
        · simp only [btreeEntryPush, if_neg h1, if_neg h2] at he
          rcases List.mem_cons.mp he with heq | he2
          · exact Or.inl (heq ▸ List.mem_cons_self _ _)
          · rcases ih he2 with h | h
            · exact Or.inl (List.mem_cons_of_mem _ h)
            · exact Or.inr h

lemma sizeSorted_btreeEntryPush (s : Nat) (p : Option Path)
    {g : List (Nat × List (Option Path))} (hs : SizeSorted g) :
    SizeSorted (btreeEntryPush g s p) := by
  induction g with
  | nil => simp [btreeEntryPush, SizeSorted]
  | cons hd tl ih =>
      obtain ⟨s', ps⟩ := hd
      obtain ⟨hall, htl⟩ := List.pairwise_cons.mp hs
      by_cases h1 : s < s'
      · simp only [btreeEntryPush, if_pos h1]
        refine List.Pairwise.cons ?_ (List.Pairwise.cons hall htl)
        intro e he
        rcases List.mem_cons.mp he with rfl | he2
        · exact h1
        · exact h1.trans (hall e he2)
      · by_cases h2 : s = s'
        · simp only [btreeEntryPush, if_neg h1, if_pos h2]
          exact List.Pairwise.cons hall htl
        · simp only [btreeEntryPush, if_neg h1, if_neg h2]
          refine List.Pairwise.cons ?_ (ih htl)
          intro e he
          rcases mem_btreeEntryPush_elim he with h | ⟨l, rfl⟩
          · exact hall e h
          · show s' < s
            omega

lemma sizeVal_btreeEntryPush_self (s : Nat) (p : Option Path)
    {g : List (Nat × List (Option Path))} (hs : SizeSorted g) :
    sizeVal (btreeEntryPush g s p) s = sizeVal g s ++ [p] := by
  induction g with
  | nil => simp [btreeEntryPush, sizeVal]
  | cons hd tl ih =>
      obtain ⟨s', ps⟩ := hd
      obtain ⟨hall, htl⟩ := List.pairwise_cons.mp hs
      by_cases h1 : s < s'
      · have htlnil : sizeVal tl s = [] :=
          sizeVal_eq_nil_of_forall_lt tl s (fun e he => h1.trans (hall e he))
        simp [btreeEntryPush, if_pos h1, sizeVal,
          if_neg (Nat.ne_of_lt h1), htlnil]
      · by_cases h2 : s = s'
        · subst h2
          simp [btreeEntryPush, if_neg h1, sizeVal]
        · simp only [btreeEntryPush, if_neg h1, if_neg h2, sizeVal, if_neg h2]
          exact ih htl

lemma sizeVal_btreeEntryPush_ne {s s'' : Nat} (p : Option Path)
    (hne : s'' ≠ s) (g : List (Nat × List (Option Path))) :
    sizeVal (btreeEntryPush g s p) s'' = sizeVal g s'' := by
  induction g with
  | nil => simp [btreeEntryPush, sizeVal, if_neg hne]
  | cons hd tl ih =>
      obtain ⟨s', ps⟩ := hd
      by_cases h1 : s < s'
      · simp only [btreeEntryPush, if_pos h1, sizeVal, if_neg hne]
      · by_cases h2 : s = s'
        · subst h2
          simp only [btreeEntryPush, if_neg h1, if_pos rfl, sizeVal, if_neg hne]
        · simp only [btreeEntryPush, if_neg h1, if_neg h2, sizeVal]
          by_cases h3 : s'' = s'
          · simp [if_pos h3]
          · simp [if_neg h3, ih]

lemma sizeVal_of_mem {g : List (Nat × List (Option Path))} (hs : SizeSorted g)
    {e : Nat × List (Option Path)} (he : e ∈ g) : sizeVal g e.1 = e.2 := by
  induction g with
  | nil => cases he
  | cons hd tl ih =>
      obtain ⟨hall, htl⟩ := List.pairwise_cons.mp hs
      rcases List.mem_cons.mp he with rfl | he2
      · simp [sizeVal]
      · have hne : e.1 ≠ hd.1 := Nat.ne_of_gt (hall e he2)
        simp only [sizeVal, if_neg hne]
        exact ih htl he2

lemma sizeVal_mem {g : List (Nat × List (Option Path))} {s : Nat}
    (h : sizeVal g s ≠ []) : (s, sizeVal g s) ∈ g := by
  induction g with
  | nil => exact absurd rfl h
  | cons hd tl ih =>
      by_cases h1 : s = hd.1
      · have hv : sizeVal (hd :: tl) s = hd.2 := by simp [sizeVal, if_pos h1]
        rw [hv]
        have : (s, hd.2) = hd := by rw [h1]
        rw [this]
        exact List.mem_cons_self _ _
      · have hv : sizeVal (hd :: tl) s = sizeVal tl s := by simp [sizeVal, if_neg h1]
        rw [hv] at h ⊢
        exact List.mem_cons_of_mem _ (ih h)

/-- Invariant of the `group_files_by_size` fold: after processing the walked
list `L`, the `BTreeMap` is key-sorted, stores under each size exactly the
paths of that size in arrival order, and holds no empty vector. -/
def SizeInv (L : List (Nat × Option Path))
    (g : List (Nat × List (Option Path))) : Prop :=
  SizeSorted g ∧
  (∀ s, sizeVal g s = (L.filter (fun f => f.1 = s)).map Prod.snd) ∧
  (∀ e ∈ g, e.2 ≠ [])

lemma sizeInv_step {L g} (f : Nat × Option Path) (h : SizeInv L g) :
    SizeInv (L ++ [f]) (btreeEntryPush g f.1 f.2) := by
  obtain ⟨hs, hval, hne⟩ := h
  refine ⟨sizeSorted_btreeEntryPush _ _ hs, ?_, ?_⟩
  · intro s
    by_cases hsf : s = f.1
    · subst hsf
      rw [sizeVal_btreeEntryPush_self _ _ hs, hval f.1, List.filter_append,
        List.map_append]
      simp
    · rw [sizeVal_btreeEntryPush_ne _ hsf, hval s, List.filter_append,
        List.map_append]
      have : [f].filter (fun f' => f'.1 = s) = [] := by
        simp [List.filter, Ne.symm hsf]
      simp [this]
  · intro e he
    rcases mem_btreeEntryPush_elim he with hin | ⟨l, rfl⟩
    · exact hne e hin
    · simp

lemma sizeInv_foldl (M : List (Nat × Option Path)) :
    ∀ L g, SizeInv L g →
      SizeInv (L ++ M) (M.foldl (fun acc f => btreeEntryPush acc f.1 f.2) g) := by
  induction M with
  | nil =>
      intro L g h
      simpa using h
  | cons f M' ih =>
      intro L g h
      have h2 := ih (L ++ [f]) _ (sizeInv_step f h)
      simpa [List.append_assoc] using h2

lemma gfbs_inv (files : List (Nat × Option Path)) :
    SizeInv files (group_files_by_size files) := by
  have h0 : SizeInv [] [] :=
    ⟨List.Pairwise.nil, fun s => by simp [sizeVal], by simp⟩
  simpa using sizeInv_foldl files [] [] h0

lemma gfbs_sorted (files : List (Nat × Option Path)) :
    SizeSorted (group_files_by_size files) := (gfbs_inv files).1

lemma gfbs_sizeVal (files : List (Nat × Option Path)) (s : Nat) :
    sizeVal (group_files_by_size files) s =
      (files.filter (fun f => f.1 = s)).map Prod.snd := (gfbs_inv files).2.1 s

lemma gfbs_groups {files : List (Nat × Option Path)}
    {e : Nat × List (Option Path)} (he : e ∈ group_files_by_size files) :
    e.2 = (files.filter (fun f => f.1 = e.1)).map Prod.snd := by
  rw [← gfbs_sizeVal files e.1, sizeVal_of_mem (gfbs_sorted files) he]

lemma gfbs_mem_of_filter_ne {files : List (Nat × Option Path)} {s : Nat}
    (h : (files.filter (fun f => f.1 = s)).map Prod.snd ≠ []) :
    (s, (files.filter (fun f => f.1 = s)).map Prod.snd) ∈
      group_files_by_size files := by
  have hv := @sizeVal_mem (group_files_by_size files) s
    (by rw [gfbs_sizeVal]; exact h)
  rwa [gfbs_sizeVal] at hv

lemma mem_filter_file_list {g : List (Nat × List (Option Path))} {p : Path} :
    p ∈ filter_file_list g ↔ ∃ e, e ∈ g ∧ 1 < e.2.length ∧ some p ∈ e.2 := by
  simp only [filter_file_list, List.mem_flatMap, List.mem_filter,
    List.mem_filterMap, id, decide_eq_true_eq]
  constructor
  · rintro ⟨e, ⟨heg, hlen⟩, q, hq, hqp⟩
    exact ⟨e, heg, hlen, by rwa [hqp] at hq⟩
  · rintro ⟨e, heg, hlen, hp⟩
    exact ⟨e, ⟨heg, hlen⟩, some p, hp, rfl⟩

lemma one_lt_length_of_mem_ne {α : Type _} {l : List α} {x y : α}
    (hx : x ∈ l) (hy : y ∈ l) (hxy : x ≠ y) : 1 < l.length := by
  match l with
  | [] => cases hx
  | [a] =>
      rw [List.mem_singleton] at hx hy
      exact absurd (hx.trans hy.symm) hxy
  | a :: b :: t =>
      simp only [List.length_cons]
      omega

/-! ## Properties of the hash worker pool and the aggregator -/

/-- The result `HashMap` never stores the same checksum twice. -/
abbrev HKeysNodup (m : List (String × List Path)) : Prop :=
  (m.map Prod.fst).Nodup

lemma hashVal_hashEntryPush_self (m : List (String × List Path)) (k : String)
    (v : Path) : hashVal (hashEntryPush m k v) k = hashVal m k ++ [v] := by
  induction m with
  | nil => simp [hashEntryPush, hashVal]
  | cons hd tl ih =>
      obtain ⟨k', vs⟩ := hd
      by_cases h1 : k = k'
      · simp [hashEntryPush, if_pos h1, hashVal, h1]
      · simp [hashEntryPush, if_neg h1, hashVal, if_neg h1, ih]

lemma hashVal_hashEntryPush_ne {k k'' : String}
    (m : List (String × List Path)) (v : Path) (hne : k'' ≠ k) :
    hashVal (hashEntryPush m k v) k'' = hashVal m k'' := by
  induction m with
  | nil => simp [hashEntryPush, hashVal, if_neg hne]
  | cons hd tl ih =>
      obtain ⟨k', vs⟩ := hd
      by_cases h1 : k = k'
      · subst h1
        simp [hashEntryPush, hashVal, if_neg hne]
      · by_cases h2 : k'' = k'
        · simp [hashEntryPush, if_neg h1, hashVal, if_pos h2]
        · simp [hashEntryPush, if_neg h1, hashVal, if_neg h2, ih]

lemma hashVal_mem {m : List (String × List Path)} {k : String}
    (h : hashVal m k ≠ []) : (k, hashVal m k) ∈ m := by
  induction m with
  | nil => exact absurd rfl h
  | cons hd tl ih =>
      by_cases h1 : k = hd.1
      · have hv : hashVal (hd :: tl) k = hd.2 := by simp [hashVal, if_pos h1]
        rw [hv]
        have : (k, hd.2) = hd := by rw [h1]
        rw [this]
        exact List.mem_cons_self _ _
      · have hv : hashVal (hd :: tl) k = hashVal tl k := by
          simp [hashVal, if_neg h1]
        rw [hv] at h ⊢
        exact List.mem_cons_of_mem _ (ih h)

lemma hashVal_of_mem {m : List (String × List Path)} (hnd : HKeysNodup m)
    {e : String × List Path} (he : e ∈ m) : hashVal m e.1 = e.2 := by
  induction m with
  | nil => cases he
  | cons hd tl ih =>
      simp only [HKeysNodup, List.map_cons, List.nodup_cons] at hnd
      rcases List.mem_cons.mp he with rfl | he2
      · simp [hashVal]
      · have hne : e.1 ≠ hd.1 := by
          intro hcontr
          exact hnd.1 (hcontr ▸ List.mem_map_of_mem Prod.fst he2)
        simp only [hashVal, if_neg hne]
        exact ih hnd.2 he2

lemma hashEntryPush_keys (m : List (String × List Path)) (k : String)
    (v : Path) :
    (hashEntryPush m k v).map Prod.fst =
      if k ∈ m.map Prod.fst then m.map Prod.fst
      else m.map Prod.fst ++ [k] := by
  induction m with
  | nil => simp [hashEntryPush]
  | cons hd tl ih =>
      obtain ⟨k', vs⟩ := hd
      by_cases h1 : k = k'
      · simp [hashEntryPush, if_pos h1, h1]
      · by_cases h2 : k ∈ tl.map Prod.fst
        · simp [hashEntryPush, if_neg h1, ih, h1, h2]
        · simp [hashEntryPush, if_neg h1, ih, h1, h2]

lemma hKeysNodup_hashEntryPush {m : List (String × List Path)} (k : String)
    (v : Path) (hnd : HKeysNodup m) : HKeysNodup (hashEntryPush m k v) := by
  unfold HKeysNodup at hnd ⊢
  rw [hashEntryPush_keys]
  by_cases h : k ∈ m.map Prod.fst
  · simpa [h] using hnd
  · simp only [if_neg h]
    rw [List.nodup_append]
    refine ⟨hnd, List.nodup_singleton k, ?_⟩
    intro x hx hxk
    rw [List.mem_singleton] at hxk
    subst hxk
    exact h hx

lemma hashWorkerLoop_ok_of_readable {h : Content → String}
    {read : Path → FileRead} (cands : List Path) :
    ∀ acc, (∀ p ∈ cands, ∃ b, read p = .bytes b) →
      ∃ m, hashWorkerLoop h read cands acc = .ok m := by
  induction cands with
  | nil => exact fun acc _ => ⟨acc, rfl⟩
  | cons c rest ih =>
      intro acc hall
      obtain ⟨b, hb⟩ := hall c (List.mem_cons_self _ _)
      simp only [hashWorkerLoop, blake3_checksum, hb]
      exact ih _ (fun p hp => hall p (List.mem_cons_of_mem _ hp))

lemma hashWorkerLoop_error_of_fail {h : Content → String}
    {read : Path → FileRead} (cands : List Path) :
    ∀ acc p e, p ∈ cands → read p = .noFile e →
      ∃ e', hashWorkerLoop h read cands acc = .error e' := by
  induction cands with
  | nil =>
      intro acc p e hp _
      cases hp
  | cons c rest ih =>
      intro acc p e hp hr
      rcases List.mem_cons.mp hp with rfl | hp2
      · exact ⟨e, by simp [hashWorkerLoop, blake3_checksum, hr]⟩
      · cases hc : blake3_checksum h read c with
        | error e2 => exact ⟨e2, by simp [hashWorkerLoop, hc]⟩
        | ok sum =>
            obtain ⟨e', he'⟩ := ih (hashEntryPush acc sum c) p e hp2 hr
            exact ⟨e', by simp [hashWorkerLoop, hc, he']⟩

lemma hashWorkerLoop_sound {h : Content → String} {read : Path → FileRead}
    (cands : List Path) :
    ∀ acc m, hashWorkerLoop h read cands acc = .ok m →
      (∀ k p, p ∈ hashVal acc k → blake3_checksum h read p = .ok k) →
      ∀ k p, p ∈ hashVal m k → blake3_checksum h read p = .ok k := by
  induction cands with
  | nil =>
      intro acc m hok hinv
      obtain rfl : acc = m := by simpa [hashWorkerLoop] using hok
      exact hinv
  | cons c rest ih =>
      intro acc m hok hinv
      cases hc : blake3_checksum h read c with
      | error e => simp [hashWorkerLoop, hc] at hok
      | ok sum =>
          simp only [hashWorkerLoop, hc] at hok
          refine ih _ _ hok ?_
          intro k p hp
          by_cases hk : k = sum
          · subst hk
            rw [hashVal_hashEntryPush_self] at hp
            rcases List.mem_append.mp hp with hp1 | hp2
            · exact hinv _ _ hp1
            · rw [List.mem_singleton] at hp2
              subst hp2
              exact hc
          · rw [hashVal_hashEntryPush_ne _ _ hk] at hp
            exact hinv _ _ hp

lemma hashWorkerLoop_mono {h : Content → String} {read : Path → FileRead}
    (cands : List Path) :
    ∀ acc m, hashWorkerLoop h read cands acc = .ok m →
      ∀ k, ∃ l, hashVal m k = hashVal acc k ++ l := by
  induction cands with
  | nil =>
      intro acc m hok k
      obtain rfl : acc = m := by simpa [hashWorkerLoop] using hok
      exact ⟨[], (List.append_nil _).symm⟩
  | cons c rest ih =>
      intro acc m hok k
      cases hc : blake3_checksum h read c with
      | error e => simp [hashWorkerLoop, hc] at hok
      | ok sum =>
          simp only [hashWorkerLoop, hc] at hok
          obtain ⟨l, hl⟩ := ih _ _ hok k
          by_cases hk : k = sum
          · subst hk
            rw [hashVal_hashEntryPush_self] at hl
            exact ⟨[c] ++ l, by rw [hl, List.append_assoc]⟩
          · rw [hashVal_hashEntryPush_ne _ _ hk] at hl
            exact ⟨l, hl⟩

lemma hashWorkerLoop_complete {h : Content → String} {read : Path → FileRead}
    (cands : List Path) :
    ∀ acc m p k, hashWorkerLoop h read cands acc = .ok m → p ∈ cands →
      blake3_checksum h read p = .ok k → p ∈ hashVal m k := by
  induction cands with
  | nil =>
      intro acc m p k _ hp
      cases hp
  | cons c rest ih =>
      intro acc m p k hok hp hsum
      cases hc : blake3_checksum h read c with
      | error e => simp [hashWorkerLoop, hc] at hok
      | ok sum =>
          simp only [hashWorkerLoop, hc] at hok
          rcases List.mem_cons.mp hp with rfl | hp2
          · have hks : sum = k := by
              rw [hc] at hsum
              exact Except.ok.inj hsum
            subst hks
            obtain ⟨l, hl⟩ := hashWorkerLoop_mono rest _ _ hok sum
            rw [hl, hashVal_hashEntryPush_self]
            simp
          · exact ih _ _ _ _ hok hp2 hsum

lemma hashWorkerLoop_nodup {h : Content → String} {read : Path → FileRead}
    (cands : List Path) :
    ∀ acc m, hashWorkerLoop h read cands acc = .ok m →
      HKeysNodup acc → HKeysNodup m := by
  induction cands with
  | nil =>
      intro acc m hok hnd
      obtain rfl : acc = m := by simpa [hashWorkerLoop] using hok
      exact hnd
  | cons c rest ih =>
      intro acc m hok hnd
      cases hc : blake3_checksum h read c with
      | error e => simp [hashWorkerLoop, hc] at hok
      | ok sum =>
          simp only [hashWorkerLoop, hc] at hok
          exact ih _ _ hok (hKeysNodup_hashEntryPush _ _ hnd)

/-! ## Properties of the duplicate extractor -/

lemma hashEntryPush_fresh {m : List (String × List Path)} {k : String}
    (v : Path) (hk : k ∉ m.map Prod.fst) :
    hashEntryPush m k v = m ++ [(k, [v])] := by
  induction m with
  | nil => rfl
  | cons hd tl ih =>
      obtain ⟨k', vs⟩ := hd
      simp only [List.map_cons, List.mem_cons, not_or] at hk
      simp [hashEntryPush, if_neg hk.1, ih hk.2]

lemma hashEntryPush_append_same {m : List (String × List Path)} {k : String}
    (l : List Path) (v : Path) (hk : k ∉ m.map Prod.fst) :
    hashEntryPush (m ++ [(k, l)]) k v = m ++ [(k, l ++ [v])] := by
  induction m with
  | nil => simp [hashEntryPush]
  | cons hd tl ih =>
      obtain ⟨k', vs⟩ := hd
      simp only [List.map_cons, List.mem_cons, not_or] at hk
      simp only [List.cons_append, hashEntryPush, if_neg hk.1]
      exact congrArg (List.cons (k', vs)) (ih hk.2)

lemma foldl_hashEntryPush_fresh {m : List (String × List Path)} {k : String}
    (l : List Path) (vs : List Path) (hk : k ∉ m.map Prod.fst) :
    vs.foldl (fun d p => hashEntryPush d k p) (m ++ [(k, l)]) =
      m ++ [(k, l ++ vs)] := by
  induction vs generalizing l with
  | nil => simp
  | cons v vs' ih =>
      simp only [List.foldl_cons]
      rw [hashEntryPush_append_same l v hk, ih (l ++ [v])]
      simp

lemma duplicated_files_aux (m : List (String × List Path)) :
    ∀ dups, HKeysNodup m → (∀ e ∈ m, e.1 ∉ dups.map Prod.fst) →
      m.foldl
        (fun d e =>
          if 1 < e.2.length then e.2.foldl (fun d' p => hashEntryPush d' e.1 p) d
          else d)
        dups
      = dups ++ m.filter (fun e => 1 < e.2.length) := by
  induction m with
  | nil =>
      intro dups _ _
      simp
  | cons e rest ih =>
      intro dups hnd hdisj
      simp only [HKeysNodup, List.map_cons, List.nodup_cons] at hnd
      have hkey : e.1 ∉ dups.map Prod.fst := hdisj e (List.mem_cons_self _ _)
      by_cases hlen : 1 < e.2.length
      · simp only [List.foldl_cons, if_pos hlen]
        have hstep : e.2.foldl (fun d' p => hashEntryPush d' e.1 p) dups =
            dups ++ [(e.1, e.2)] := by
          cases he2 : e.2 with
          | nil =>
              rw [he2] at hlen
              simp at hlen
          | cons v vs' =>
              simp only [List.foldl_cons]
              rw [hashEntryPush_fresh v hkey,
                foldl_hashEntryPush_fresh [v] vs' hkey]
              simp
        rw [hstep]
        rw [ih (dups ++ [(e.1, e.2)]) hnd.2 ?_]
        · simp [List.filter_cons, hlen]
        · intro e' he'
          simp only [List.map_append, List.mem_append, List.map_cons,
            List.map_nil, List.mem_singleton, not_or]
          refine ⟨hdisj e' (List.mem_cons_of_mem _ he'), ?_⟩
          intro hcontr
          exact hnd.1 (hcontr ▸ List.mem_map_of_mem Prod.fst he')
      · simp only [List.foldl_cons, if_neg hlen]
        rw [ih dups hnd.2 (fun e' he' => hdisj e' (List.mem_cons_of_mem _ he'))]
        simp [List.filter_cons, hlen]

lemma duplicated_files_eq_filter {m : List (String × List Path)}
    (hnd : HKeysNodup m) :
    duplicated_files m = m.filter (fun e => 1 < e.2.length) := by
  have haux := duplicated_files_aux m [] hnd (by simp)
  simpa [duplicated_files] using haux

/-! ## Properties of the walk stage and the whole pipeline -/

lemma okBind {ε α β : Type _} (a : α) (f : α → Except ε β) :
    (Except.ok a >>= f) = f a := rfl

lemma errBind {ε α β : Type _} (e : ε) (f : α → Except ε β) :
    ((Except.error e : Except ε α) >>= f) = .error e := rfl

lemma walk_files_treeListing (t : List (Path × Content)) :
    walk_files (treeListing t) = .ok (treeFiles t) := by
  induction t with
  | nil => rfl
  | cons f t' ih =>
      simp only [treeListing, List.map_cons] at ih ⊢
      by_cases h0 : f.2.length = 0
      · have h0' : f.2 = [] := List.length_eq_zero.mp h0
        simp [walk_files, treeFiles, ih, h0', okBind]
      · have h0' : f.2 ≠ [] := fun hc => h0 (by rw [hc]; rfl)
        simp [walk_files, treeFiles, ih, h0, h0', okBind]

lemma walk_files_append_metaFail (xs : List WalkItem) :
    ∀ fs e p ys, walk_files xs = .ok fs →
      walk_files (xs ++ WalkItem.entry true (.error e) p :: ys) = .error e := by
  induction xs with
  | nil =>
      intro fs e p ys _
      rfl
  | cons x rest ih =>
      intro fs e p ys hok
      cases x with
      | err =>
          simp only [List.cons_append, walk_files] at hok ⊢
          exact ih fs e p ys hok
      | entry isf meta q =>
          cases isf with
          | false =>
              simp only [List.cons_append, walk_files] at hok ⊢
              exact ih fs e p ys hok
          | true =>
              cases meta with
              | error e2 => simp [walk_files, okBind, errBind] at hok
              | ok len =>
                  cases hrest : walk_files rest with
                  | error e2 =>
                      simp [walk_files, hrest, okBind, errBind] at hok
                  | ok files =>
                      simp [List.cons_append, walk_files, okBind, errBind, ih files e p ys hrest]

lemma run_ok_inv {h : Content → String} {read : Path → FileRead}
    {items : List WalkItem} {gs : List (String × List Path)}
    (hok : run h read items = .ok gs) :
    ∃ files m, walk_files items = .ok files ∧
      hashWorkerLoop h read (filter_file_list (group_files_by_size files)) []
        = .ok m ∧
      gs = duplicated_files m := by
  cases hw : walk_files items with
  | error e => simp [run, hw, okBind, errBind] at hok
  | ok files =>
      cases hm : group_files_by_checksum h read (group_files_by_size files) with
      | error e =>
          simp [run, hw, hm, okBind, errBind] at hok
      | ok m =>
          refine ⟨files, m, rfl, hm, ?_⟩
          simp [run, hw, hm, okBind, errBind] at hok
          exact hok.symm

lemma run_ok_of_stages {h : Content → String} {read : Path → FileRead}
    {items : List WalkItem} {files : List (Nat × Option Path)}
    {m : List (String × List Path)}
    (hw : walk_files items = .ok files)
    (hm : hashWorkerLoop h read (filter_file_list (group_files_by_size files))
      [] = .ok m) :
    run h read items = .ok (duplicated_files m) := by
  simp [run, hw, group_files_by_checksum, hm, okBind, errBind]

/-! ## Lookup helpers for static trees -/

lemma lookup_isSome_of_mem {t : List (Path × Content)} {f : Path × Content}
    (hf : f ∈ t) : ∃ c, t.lookup f.1 = some c := by
  induction t with
  | nil => cases hf
  | cons hd tl ih =>
      by_cases h1 : f.1 = hd.1
      · have hbeq : (f.1 == hd.1) = true := beq_iff_eq.mpr h1
        exact ⟨hd.2, by simp [List.lookup, hbeq]⟩
      · rcases List.mem_cons.mp hf with rfl | h2
        · exact absurd rfl h1
        · obtain ⟨c, hc⟩ := ih h2
          have hbeq : (f.1 == hd.1) = false := beq_eq_false_iff_ne.mpr h1
          exact ⟨c, by simp [List.lookup, hbeq, hc]⟩

lemma lookup_eq_of_mem_nodup {t : List (Path × Content)}
    (hnd : (t.map Prod.fst).Nodup) {a : Path} {c : Content}
    (h : (a, c) ∈ t) : t.lookup a = some c := by
  induction t with
  | nil => cases h
  | cons hd tl ih =>
      simp only [List.map_cons, List.nodup_cons] at hnd
      rcases List.mem_cons.mp h with heq | h2
      · subst heq
        simp [List.lookup]
      · have hne : a ≠ hd.1 := fun hc => hnd.1 (hc ▸ List.mem_map_of_mem Prod.fst h2)
        have hbeq : (a == hd.1) = false := beq_eq_false_iff_ne.mpr hne
        simpa [List.lookup, hbeq] using ih hnd.2 h2

lemma mem_of_lookup_eq_some {t : List (Path × Content)} {a : Path}
    {c : Content} (h : t.lookup a = some c) : (a, c) ∈ t := by
  induction t with
  | nil => simp [List.lookup] at h
  | cons hd tl ih =>
      by_cases h1 : a = hd.1
      · have hbeq : (a == hd.1) = true := beq_iff_eq.mpr h1
        simp only [List.lookup, hbeq, Option.some.injEq] at h
        refine List.mem_cons.mpr (Or.inl ?_)
        rw [h1, ← h]
      · have hbeq : (a == hd.1) = false := beq_eq_false_iff_ne.mpr h1
        simp only [List.lookup, hbeq] at h
        exact List.mem_cons_of_mem _ (ih h)

lemma length_filter_le_one_of_pairwise_ne {files : List (Nat × Option Path)}
    (hpw : files.Pairwise (fun a b => a.1 ≠ b.1)) (s : Nat) :
    (files.filter (fun f => f.1 = s)).length ≤ 1 := by
  induction files with
  | nil => simp
  | cons f rest ih =>
      obtain ⟨hall, hrest⟩ := List.pairwise_cons.mp hpw
      by_cases hf : f.1 = s
      · have hnil : rest.filter (fun f2 => f2.1 = s) = [] := by
          rw [List.filter_eq_nil]
          intro a ha
          simp only [decide_eq_true_eq]
          exact fun hc => hall a ha (by rw [hf, hc])
        simp [List.filter_cons, hf, hnil]
      · simpa [List.filter_cons, hf] using ih hrest

/-! ## The claims -/

/-- C7: given any completed fingerprint→paths mapping (with distinct keys,
as a `HashMap` always has), `duplicated_files` returns exactly the entries
whose path vector has cardinality ≥ 2, each still paired with its
fingerprint and with its path vector unchanged. -/
theorem c7_duplicate_extractor_exact (m : List (String × List Path))
    (hnd : HKeysNodup m) :
    duplicated_files m = m.filter (fun e => 2 ≤ e.2.length) :=
  duplicated_files_eq_filter hnd

theorem c7_witness :
    duplicated_files [("a", [0, 1]), ("b", [2])] = [("a", [0, 1])] := by
  rw [c7_duplicate_extractor_exact [("a", [0, 1]), ("b", [2])] (by decide)]
  rfl

/-- C10: the candidate list handed to the hash workers is deterministic:
the size groups sit in strictly ascending size order, each group's vector is
the walk-order sublist of the paths of that size, and `filter_file_list`
emits exactly the groups with more than one path, flattened in that order. -/
theorem c10_candidate_order (files : List (Nat × Option Path)) :
    (group_files_by_size files).Pairwise (fun a b => a.1 < b.1) ∧
    (∀ e, e ∈ group_files_by_size files →
      e.2 = (files.filter (fun f => f.1 = e.1)).map Prod.snd) ∧
    filter_file_list (group_files_by_size files) =
      ((group_files_by_size files).filter (fun e => 1 < e.2.length)).flatMap
        (fun e => e.2.filterMap id) :=
  ⟨gfbs_sorted files, fun _ he => gfbs_groups he, rfl⟩

theorem c10_witness :
    ((2 : Nat), [some (5 : Path), some 7]).2 =
      ([((2 : Nat), some (5 : Path)), (1, some 6), (2, some 7)].filter
        (fun f => f.1 = ((2 : Nat), [some (5 : Path), some 7]).1)).map
        Prod.snd :=
  (c10_candidate_order [(2, some 5), (1, some 6), (2, some 7)]).2.1
    (2, [some 5, some 7]) (by decide)

/-- C4: a file whose size is unique across the scanned tree is never
forwarded to the hash workers (first conjunct: `p` is listed exactly once,
with a size `s` carried by exactly one file, and is then not a candidate),
and a walk in which every size is unique yields zero candidates (second
conjunct). -/
theorem c4_size_filter_exactness :
    (∀ (files : List (Nat × Option Path)) (p : Path) (s : Nat),
      files.filter (fun f => f.2 = some p) = [(s, some p)] →
      (files.filter (fun f => f.1 = s)).length = 1 →
      p ∉ filter_file_list (group_files_by_size files)) ∧
    (∀ files : List (Nat × Option Path),
      files.Pairwise (fun a b => a.1 ≠ b.1) →
      filter_file_list (group_files_by_size files) = []) := by
  constructor
  · intro files p s hflt hlen hmem
    rw [mem_filter_file_list] at hmem
    obtain ⟨e, heg, hlen2, hpe⟩ := hmem
    rw [gfbs_groups heg] at hpe
    obtain ⟨f, hf, hf2⟩ := List.mem_map.mp hpe
    obtain ⟨hffiles, hfkey⟩ := List.mem_filter.mp hf
    have hfmem : f ∈ files.filter (fun f2 => f2.2 = some p) :=
      List.mem_filter.mpr ⟨hffiles, by simp [hf2]⟩
    rw [hflt, List.mem_singleton] at hfmem
    have hkey : e.1 = s := by
      have := (decide_eq_true_eq.mp hfkey)
      rw [← this, hfmem]
    have hlen3 : e.2.length = 1 := by
      rw [gfbs_groups heg, List.length_map, hkey, hlen]
    omega
  · intro files hpw
    have hg : (group_files_by_size files).filter (fun e => 1 < e.2.length)
        = [] := by
      rw [List.filter_eq_nil]
      intro e heg
      simp only [decide_eq_true_eq, not_lt]
      rw [gfbs_groups heg, List.length_map]
      exact length_filter_le_one_of_pairwise_ne hpw e.1
    rw [filter_file_list, hg]
    rfl

theorem c4_witness :
    (0 : Path) ∉ filter_file_list
      (group_files_by_size [(1, some 0), (2, some 1), (2, some 2)]) ∧
    filter_file_list (group_files_by_size [(3, some 4), (5, some 6)]) = [] :=
  ⟨c4_size_filter_exactness.1 [(1, some 0), (2, some 1), (2, some 2)] 0 1
      (by decide) (by decide),
    c4_size_filter_exactness.2 [(3, some 4), (5, some 6)] (by decide)⟩

/-- C8 (counterexample): after the two size-5 files have been processed,
the size table holds BOTH of their paths under key 5 — not at most one
pending path — and neither has been emitted (emission only happens later,
in `filter_file_list`).  The pending slot is therefore not retired when the
second file of the size arrives; the vector just grows. -/
theorem c8_cex :
    group_files_by_size [(5, some 0), (5, some 1)] =
      [(5, [some 0, some 1])] := rfl

/-- C8 (amended): at every instant (i.e. for every processed prefix
`files` of the walked stream) the per-size table accumulates, for each
size, every path of that size seen so far, in arrival order and never
empty; nothing is emitted during grouping — the paths of sizes with ≥2
occupants are released together afterwards by `filter_file_list`. -/
theorem c8_amended_table (files : List (Nat × Option Path)) :
    (∀ e, e ∈ group_files_by_size files →
      e.2 = (files.filter (fun f => f.1 = e.1)).map Prod.snd ∧ e.2 ≠ []) ∧
    (∀ p, p ∈ filter_file_list (group_files_by_size files) ↔
      ∃ e, e ∈ group_files_by_size files ∧ 1 < e.2.length ∧ some p ∈ e.2) :=
  ⟨fun e he => ⟨gfbs_groups he, (gfbs_inv files).2.2 e he⟩,
    fun _ => mem_filter_file_list⟩

theorem c8_witness :
    ((5 : Nat), [some (0 : Path), some 1]).2 =
      ([((5 : Nat), some (0 : Path)), (5, some 1)].filter
        (fun f => f.1 = ((5 : Nat), [some (0 : Path), some 1]).1)).map
        Prod.snd ∧
    ((5 : Nat), [some (0 : Path), some 1]).2 ≠ [] :=
  (c8_amended_table [(5, some 0), (5, some 1)]).1 (5, [some 0, some 1])
    (by decide)

/-- C9 (counterexample): a walkdir stream of three listed file entries in
which the middle entry's `metadata()` fails: `walk_files` aborts the whole
walk with that error instead of skipping the entry and continuing. -/
theorem c9_cex :
    walk_files [WalkItem.entry true (Except.ok 1) 0,
      WalkItem.entry true (Except.error IOErr.metaErr) 1,
      WalkItem.entry true (Except.ok 1) 2] =
      Except.error IOErr.metaErr := rfl

/-- C9 (amended): an entry whose walkdir iteration fails is skipped and the
walk continues (first conjunct, `filter_map(|e| e.ok())`), but a metadata
failure on a listed file entry is NOT recovered: it aborts the entire walk
with that error (second conjunct, the `?` on `entry.metadata()?`). -/
theorem c9_amended_walk_errors :
    (∀ items, walk_files (WalkItem.err :: items) = walk_files items) ∧
    (∀ xs fs e p ys, walk_files xs = Except.ok fs →
      walk_files (xs ++ WalkItem.entry true (Except.error e) p :: ys) =
        Except.error e) :=
  ⟨fun _ => rfl, fun xs fs e p ys h => walk_files_append_metaFail xs fs e p ys h⟩

theorem c9_witness :
    walk_files ([WalkItem.entry true (Except.ok 2) 3] ++
      WalkItem.entry true (Except.error IOErr.permission) 4 :: []) =
      Except.error IOErr.permission :=
  c9_amended_walk_errors.2 [WalkItem.entry true (Except.ok 2) 3]
    [(2, some 3)] IOErr.permission 4 [] rfl

/-- C5 (counterexample): for a nonexistent root, walkdir yields exactly one
`Err` item; `filter_map(|e| e.ok())` silently discards it, so the program
does NOT surface a fatal error: the run completes successfully with zero
duplicate groups instead of exiting with an error. -/
theorem c5_cex :
    run (fun _ => "") (fun _ => FileRead.noFile IOErr.notFound)
      [WalkItem.err] = Except.ok [] := rfl

/-- C5 (amended): a nonexistent root (walkdir stream `[Err]`) and a
non-directory root (walkdir stream of the single file entry itself) are
both silently tolerated: no error is surfaced at startup or later, the
whole pipeline runs, and the program exits successfully with zero duplicate
groups. -/
theorem c5_amended_no_fatal (h : Content → String) (read : Path → FileRead) :
    run h read [WalkItem.err] = Except.ok [] ∧
    (∀ n p, run h read [WalkItem.entry true (Except.ok n) p] =
      Except.ok []) := by
  refine ⟨rfl, ?_⟩
  intro n p
  by_cases hn : n = 0
  · subst hn
    rfl
  · simp [run, walk_files, hn, okBind, group_files_by_size, btreeEntryPush,
      group_files_by_checksum, filter_file_list, hashWorkerLoop,
      duplicated_files, List.filter, List.foldl]

/-- C1 (counterexample): two size-1 files, the second of which fails to
open at hash time.  The failure is not recovered locally: the run as a
whole aborts with the error, so no output is produced for the remaining
(successfully hashed) file either. -/
theorem c1_cex :
    run (fun _ => "a")
      (fun p => if p = 0 then FileRead.bytes [7]
        else FileRead.noFile IOErr.notFound)
      [WalkItem.entry true (Except.ok 1) 0,
        WalkItem.entry true (Except.ok 1) 1] =
      Except.error IOErr.notFound := rfl

/-- C1 (amended): a hash-stage open failure is NOT recovered locally: the
worker propagates it via `blake3_checksum(&path)?` and
`group_files_by_checksum` returns it via `t.join().expect(..)?`, so
whenever some candidate path fails to open the whole run aborts with an
error and produces no duplicate-group output at all (a partially read path,
by contrast, is silently hashed from the prefix that was copied). -/
theorem c1_amended_abort (h : Content → String) (read : Path → FileRead)
    (items : List WalkItem) (files : List (Nat × Option Path))
    (hw : walk_files items = Except.ok files)
    (hfail : ∃ p e, p ∈ filter_file_list (group_files_by_size files) ∧
      read p = FileRead.noFile e) :
    ∃ e2, run h read items = Except.error e2 := by
  obtain ⟨p, e, hp, hr⟩ := hfail
  obtain ⟨e2, he2⟩ := @hashWorkerLoop_error_of_fail h read
    (filter_file_list (group_files_by_size files)) [] p e hp hr
  refine ⟨e2, ?_⟩
  simp [run, hw, group_files_by_checksum, he2, okBind, errBind]

theorem c1_witness :
    ∃ e2, run (fun _ => "b") (fun _ => FileRead.noFile IOErr.permission)
      [WalkItem.entry true (Except.ok 3) 0,
        WalkItem.entry true (Except.ok 3) 1] = Except.error e2 :=
  c1_amended_abort (fun _ => "b") (fun _ => FileRead.noFile IOErr.permission)
    [WalkItem.entry true (Except.ok 3) 0, WalkItem.entry true (Except.ok 3) 1]
    [(3, some 0), (3, some 1)] rfl
    ⟨0, IOErr.permission, by decide, rfl⟩

/-- C6 (counterexample): three size-1 files; paths 0 and 1 hold identical
content and path 2 fails to read.  Contrary to the claim, path 2's failure
does prevent the other files from being grouped in the final output: the
run aborts with the error and produces no output at all, so the duplicate
pair {0, 1} is never reported. -/
theorem c6_cex :
    run (fun _ => "c")
      (fun p => if p ≤ 1 then FileRead.bytes [1]
        else FileRead.noFile IOErr.notFound)
      [WalkItem.entry true (Except.ok 1) 0,
        WalkItem.entry true (Except.ok 1) 1,
        WalkItem.entry true (Except.ok 1) 2] =
      Except.error IOErr.notFound := rfl

/-- C6 (amended): a path that the hash stage fails to open indeed appears
in no output duplicate group — whenever the run succeeds, every path of
every reported group was successfully opened and read — but the second half
of the claim fails (see the counterexample): a read failure among the
candidates aborts the whole run, so it does prevent the other files from
being grouped in the final output. -/
theorem c6_amended_no_failed_path_reported (h : Content → String)
    (read : Path → FileRead) (items : List WalkItem)
    (gs : List (String × List Path)) (hok : run h read items = Except.ok gs) :
    ∀ g, g ∈ gs → ∀ p, p ∈ g.2 → ∃ b, read p = FileRead.bytes b := by
  obtain ⟨files, m, hw, hm, rfl⟩ := run_ok_inv hok
  intro g hg p hp
  have hnd : HKeysNodup m :=
    hashWorkerLoop_nodup _ _ _ hm (by simp [HKeysNodup])
  rw [duplicated_files_eq_filter hnd] at hg
  have hgm : g ∈ m := (List.mem_filter.mp hg).1
  have hvg : hashVal m g.1 = g.2 := hashVal_of_mem hnd hgm
  have hsound := hashWorkerLoop_sound _ _ _ hm
    (by intro k q hq; simp [hashVal] at hq) g.1 p (by rw [hvg]; exact hp)
  cases hr : read p with
  | noFile e => simp [blake3_checksum, hr] at hsound
  | bytes b => exact ⟨b, rfl⟩

theorem c6_witness :
    ∃ b, (fun _ => FileRead.bytes [9]) (0 : Path) = FileRead.bytes b :=
  c6_amended_no_failed_path_reported (fun _ => "d") (fun _ => FileRead.bytes [9])
    [WalkItem.entry true (Except.ok 1) 0, WalkItem.entry true (Except.ok 1) 1]
    [("d", [0, 1])] rfl ("d", [0, 1]) (by decide) 0 (by decide)

/-- C2 (counterexample): a tree of two zero-byte files with identical
(empty) content.  `walk_files` drops zero-length files (`if file_len != 0`),
so the run succeeds with zero reported groups: the identical pair (0, 1)
does not appear together in any reported duplicate group. -/
theorem c2_cex :
    runTree (fun _ => "e") [(0, []), (1, [])] = Except.ok [] ∧
    List.lookup (0 : Path) [((0 : Path), ([] : Content)), (1, [])] =
      List.lookup (1 : Path) [((0 : Path), ([] : Content)), (1, [])] :=
  ⟨rfl, rfl⟩

/-- C2 (amended): completeness holds for non-empty files: for every pair of
distinct paths of the scanned tree carrying identical NON-EMPTY byte
content, the run succeeds and reports a group containing both paths
(zero-byte files are dropped by `walk_files` and are never reported). -/
theorem c2_amended_completeness (h : Content → String)
    (t : List (Path × Content)) (a b : Path) (ca cb : Content)
    (hnd : (t.map Prod.fst).Nodup) (ha : (a, ca) ∈ t) (hb : (b, cb) ∈ t)
    (hab : a ≠ b) (hcab : ca = cb) (hne : ca ≠ []) :
    ∃ gs, runTree h t = Except.ok gs ∧
      ∃ g, g ∈ gs ∧ a ∈ g.2 ∧ b ∈ g.2 := by
  subst hcab
  have hlen0 : ca.length ≠ 0 := fun hc => hne (List.length_eq_zero.mp hc)
  have hfa : (ca.length, some a) ∈ treeFiles t := by
    simp only [treeFiles, List.mem_filterMap]
    exact ⟨(a, ca), ha, by simp [hlen0]⟩
  have hfb : (ca.length, some b) ∈ treeFiles t := by
    simp only [treeFiles, List.mem_filterMap]
    exact ⟨(b, ca), hb, by simp [hlen0]⟩
  have hpa : some a ∈ ((treeFiles t).filter
      (fun f => f.1 = ca.length)).map Prod.snd :=
    List.mem_map.mpr ⟨(ca.length, some a),
      List.mem_filter.mpr ⟨hfa, by simp⟩, rfl⟩
  have hpb : some b ∈ ((treeFiles t).filter
      (fun f => f.1 = ca.length)).map Prod.snd :=
    List.mem_map.mpr ⟨(ca.length, some b),
      List.mem_filter.mpr ⟨hfb, by simp⟩, rfl⟩
  have hgrp := @gfbs_mem_of_filter_ne (treeFiles t) ca.length
    (fun hc => by rw [hc] at hpa; cases hpa)
  have hlen : 1 < (((treeFiles t).filter
      (fun f => f.1 = ca.length)).map Prod.snd).length :=
    one_lt_length_of_mem_ne hpa hpb (fun hc => hab (Option.some.inj hc))
  have hmema : a ∈ filter_file_list (group_files_by_size (treeFiles t)) :=
    mem_filter_file_list.mpr ⟨_, hgrp, hlen, hpa⟩
  have hmemb : b ∈ filter_file_list (group_files_by_size (treeFiles t)) :=
    mem_filter_file_list.mpr ⟨_, hgrp, hlen, hpb⟩
  have hread : ∀ p ∈ filter_file_list (group_files_by_size (treeFiles t)),
      ∃ bts, treeRead t p = FileRead.bytes bts := by
    intro p hp
    rw [mem_filter_file_list] at hp
    obtain ⟨e, heg, _, hpe⟩ := hp
    rw [gfbs_groups heg] at hpe
    obtain ⟨f, hf, hf2⟩ := List.mem_map.mp hpe
    have hffiles : f ∈ treeFiles t := (List.mem_filter.mp hf).1
    simp only [treeFiles, List.mem_filterMap] at hffiles
    obtain ⟨fc, hfct, hfc⟩ := hffiles
    have hfcp : fc.1 = p := by
      by_cases hz : fc.2.length ≠ 0
      · rw [if_pos hz] at hfc
        have hfeq := Option.some.inj hfc
        rw [← hfeq] at hf2
        exact Option.some.inj hf2
      · rw [if_neg hz] at hfc
        cases hfc
    obtain ⟨c, hc⟩ := lookup_isSome_of_mem hfct
    rw [hfcp] at hc
    exact ⟨c, by simp [treeRead, hc]⟩
  obtain ⟨m, hm⟩ := @hashWorkerLoop_ok_of_readable h (treeRead t)
    (filter_file_list (group_files_by_size (treeFiles t))) [] hread
  have hrun := run_ok_of_stages (walk_files_treeListing t) hm
  have hca : blake3_checksum h (treeRead t) a = Except.ok (h ca) := by
    simp [blake3_checksum, treeRead, lookup_eq_of_mem_nodup hnd ha]
  have hcb : blake3_checksum h (treeRead t) b = Except.ok (h ca) := by
    simp [blake3_checksum, treeRead, lookup_eq_of_mem_nodup hnd hb]
  have hma : a ∈ hashVal m (h ca) :=
    hashWorkerLoop_complete _ _ _ _ _ hm hmema hca
  have hmb : b ∈ hashVal m (h ca) :=
    hashWorkerLoop_complete _ _ _ _ _ hm hmemb hcb
  have hvne : hashVal m (h ca) ≠ [] := fun hc => by rw [hc] at hma; cases hma
  have hgm : (h ca, hashVal m (h ca)) ∈ m := hashVal_mem hvne
  have hnd2 : HKeysNodup m :=
    hashWorkerLoop_nodup _ _ _ hm (by simp [HKeysNodup])
  have hlen2 : 1 < (hashVal m (h ca)).length :=
    one_lt_length_of_mem_ne hma hmb hab
  refine ⟨duplicated_files m, by simpa [runTree] using hrun,
    (h ca, hashVal m (h ca)), ?_, hma, hmb⟩
  rw [duplicated_files_eq_filter hnd2]
  exact List.mem_filter.mpr ⟨hgm, by simpa using hlen2⟩

theorem c2_witness :
    ∃ gs, runTree (fun _ => "w") [(0, [1]), (1, [1])] = Except.ok gs ∧
      ∃ g, g ∈ gs ∧ 0 ∈ g.2 ∧ 1 ∈ g.2 :=
  c2_amended_completeness (fun _ => "w") [(0, [1]), (1, [1])] 0 1 [1] [1]
    (by decide) (by decide) (by decide) (by decide) rfl (by decide)

/-- C3: assuming the digest is collision-free on the contents of the
scanned tree, no reported duplicate group contains two paths whose file
contents differ: any two paths of one group have the same lookup in the
tree. -/
theorem c3_soundness (h : Content → String) (t : List (Path × Content))
    (hinj : ∀ c d, (∃ p, (p, c) ∈ t) → (∃ q, (q, d) ∈ t) → h c = h d → c = d)
    (gs : List (String × List Path)) (hrun : runTree h t = Except.ok gs) :
    ∀ g, g ∈ gs → ∀ a, a ∈ g.2 → ∀ b, b ∈ g.2 →
      t.lookup a = t.lookup b := by
  simp only [runTree] at hrun
  obtain ⟨files, m, hw, hm, rfl⟩ := run_ok_inv hrun
  intro g hg a ha b hb
  have hnd : HKeysNodup m :=
    hashWorkerLoop_nodup _ _ _ hm (by simp [HKeysNodup])
  rw [duplicated_files_eq_filter hnd] at hg
  have hgm : g ∈ m := (List.mem_filter.mp hg).1
  have hvg : hashVal m g.1 = g.2 := hashVal_of_mem hnd hgm
  have hsound := hashWorkerLoop_sound _ _ _ hm
    (by intro k q hq; simp [hashVal] at hq)
  have hca := hsound g.1 a (by rw [hvg]; exact ha)
  have hcb := hsound g.1 b (by rw [hvg]; exact hb)
  cases hla : List.lookup a t with
  | none => simp [blake3_checksum, treeRead, hla] at hca
  | some ca =>
      cases hlb : List.lookup b t with
      | none => simp [blake3_checksum, treeRead, hlb] at hcb
      | some cb =>
          simp only [blake3_checksum, treeRead, hla, hlb,
            Except.ok.injEq] at hca hcb
          have hceq : ca = cb := hinj ca cb ⟨a, mem_of_lookup_eq_some hla⟩
            ⟨b, mem_of_lookup_eq_some hlb⟩ (hca.trans hcb.symm)
          rw [hceq]

theorem c3_witness :
    List.lookup (0 : Path) [((0 : Path), [(1 : Nat)]), (1, [1])] =
      List.lookup (1 : Path) [((0 : Path), [(1 : Nat)]), (1, [1])] := by
  refine c3_soundness (fun _ => "z") [(0, [1]), (1, [1])] ?_
    [("z", [0, 1])] rfl ("z", [0, 1]) (by decide) 0 (by decide) 1 (by decide)
  intro c d hc hd _
  obtain ⟨p, hp⟩ := hc
  obtain ⟨q, hq⟩ := hd
  simp only [List.mem_cons, List.not_mem_nil, or_false,
    Prod.mk.injEq] at hp hq
  rcases hp with ⟨_, rfl⟩ | ⟨_, rfl⟩ <;> rcases hq with ⟨_, rfl⟩ | ⟨_, rfl⟩ <;>
    rfl

end Rdups
